import Mathlib

set_option maxHeartbeats 1000000

/-!
# SDeckTools pack editor: a shallow embedding

This file embeds the pack-editing core of `src/src/App.jsx` (and its
variant in `src/unnamed/part_000`): the slot-to-files mapping (`config`),
the pack metadata (`packInfo`), the upload / remove handlers, and the
zip export / import round trip.

Modelling choices:
* File bytes are `List Nat`.  A browser `File`/`Blob`'s `size` is its byte
  length, so `size` fields are computed as the length of the content.
* `URL.createObjectURL` hands out handles from a counter (`nextUrl`);
  the handles currently allocated and not revoked are the `live` list.
  `URL.revokeObjectURL` removes a handle from `live` (revoking an
  already-dead handle is a no-op, as in the browser).
* A JS object with string keys is an insertion-ordered association list;
  `objGet`/`objSet` are property read / assignment.  The same structure
  models JSZip's name-to-entry dictionary (`zip.file(name, data)`
  replaces an existing entry of the same name).
* A zip entry is either the parsed manifest (`pack.json` holding
  well-formed manifest JSON, which `JSON.parse` reads back as written)
  or opaque file bytes; reading a manifest entry as a blob yields its
  JSON text, whose exact formatting no theorem relies on.  `JSON.parse`
  applied to non-manifest bytes throws, which surfaces as a distinct
  error of the zip-upload handler (the source does not itself distinguish
  the two failure alerts; the model keeps them apart only to name the
  failing branch).
* Zip serialisation (`generateAsync`) and parsing (`loadAsync`) are the
  archive library's inverse pair; the archive is passed structurally.
-/

/-- Byte content of a file. -/
abbrev Bytes := List Nat

/-- One element of a slot's sequence: the object literal pushed by
`handleFileUpload` / `handleZipUpload` with fields
`name`, `file`, `url`, `size`. -/
structure Track where
  name : String
  file : Bytes
  url : Nat
  size : Nat
  deriving DecidableEq

/-- The `config` state: a JS object mapping each slot id to its ordered
array of tracks. -/
abbrev Config := List (String × List Track)

/-- Reading property `k` of a JS object (also JSZip entry lookup,
`loadedZip.file(k)`): the first pair with that key. -/
def objGet {α : Type} : List (String × α) → String → Option α
  | [], _ => none
  | p :: rest, k => if p.1 == k then some p.2 else objGet rest k

/-- Property assignment `obj[k] = v` (also `zip.file(k, v)`): replace the
value at an existing key, append a new key at the end. -/
def objSet {α : Type} : List (String × α) → String → α → List (String × α)
  | [], k, v => [(k, v)]
  | p :: rest, k, v => if p.1 == k then (k, v) :: rest else p :: objSet rest k v

/-- A browser `File` offered to `handleFileUpload`: its name and bytes. -/
structure CandidateFile where
  name : String
  content : Bytes
  deriving DecidableEq

/-- The `packInfo` state / the parsed `pack.json` manifest.  In the source
the initial `mappings` field is a copy of the (all-empty) initial config;
export always overwrites it with the name lists derived from `config`. -/
structure PackInfo where
  name : String
  description : String
  author : String
  version : String
  manifest_version : Nat
  music : Bool
  ignore : List String
  mappings : List (String × List String)
  deriving DecidableEq

/-- The mutable session state of the `App` component. -/
structure AppState where
  config : Config
  packInfo : PackInfo
  errorMessage : String
  nextUrl : Nat
  live : List Nat
  deriving DecidableEq

/-- One catalog entry of the static `itemsData` list (`files.json`). -/
structure CatalogItem where
  fileName : String
  title : String
  description : String
  deriving DecidableEq

/-- `itemsData.reduce((acc, item) => \x7b acc[item.fileName] = []; return acc; \x7d, \x7b\x7d)` -/
def initialConfig (itemsData : List CatalogItem) : Config :=
  itemsData.foldl (fun acc item => objSet acc item.fileName []) []

/-- The slot-to-names projection used by `handleExport` and
`handleExportConfig`: `config[fileName].map((f) => f.name)` per slot. -/
def exportMappings (config : Config) : List (String × List String) :=
  config.map (fun p => (p.1, p.2.map Track.name))

/-- The initial `packInfo` literal of `App`. -/
def defaultPackInfo (config : Config) : PackInfo :=
  { name := "SDeckTools Pack"
    description := "SFX Pack created in SDeckTools.com"
    author := "SDeckTools.com"
    version := "v1.0"
    manifest_version := 2
    music := false
    ignore := []
    mappings := exportMappings config }

/-- The component's initial state. -/
def initialState (itemsData : List CatalogItem) : AppState :=
  { config := initialConfig itemsData
    packInfo := defaultPackInfo (initialConfig itemsData)
    errorMessage := ""
    nextUrl := 0
    live := [] }

/-- Extension filter of `src/src/App.jsx`: `file.name.endsWith(".wav")`. -/
def wavOnly (n : String) : Bool := n.endsWith ".wav"

/-- Extension filter of the `src/unnamed/part_000` variant:
`.wav` or `.mp3`. -/
def wavOrMp3 (n : String) : Bool := n.endsWith ".wav" || n.endsWith ".mp3"

/-- The local mutable variables of `handleFileUpload` (`newConfig`,
`invalidFiles`) together with the object-URL allocator. -/
structure UploadAcc where
  config : Config
  nextUrl : Nat
  live : List Nat
  invalid : Bool
  deriving DecidableEq

/-- The body of `acceptedFiles.forEach` in `handleFileUpload`: skip and
flag a file with a disallowed name; skip a name already present in the
slot; otherwise create an object URL and append the new track. -/
def uploadStep (allowed : String → Bool) (slotName : String)
    (acc : UploadAcc) (f : CandidateFile) : UploadAcc :=
  if !(allowed f.name) then { acc with invalid := true }
  else
    let existing := (objGet acc.config slotName).getD []
    if existing.any (fun t => t.name == f.name) then acc
    else
      { config := objSet acc.config slotName
          (existing ++ [⟨f.name, f.content, acc.nextUrl, f.content.length⟩])
        nextUrl := acc.nextUrl + 1
        live := acc.live ++ [acc.nextUrl]
        invalid := acc.invalid }

/-- The aggregate advisory text set when a batch contained an
incompatible file. -/
def incompatibleMsg : String := "Some files were incompatible and have been skipped."

/-- `handleFileUpload(fileName, acceptedFiles, config, setConfig,
setErrorMessage)`, parameterised by the deployment's extension filter. -/
def handleFileUpload (allowed : String → Bool) (slotName : String)
    (acceptedFiles : List CandidateFile) (st : AppState) : AppState :=
  let r := acceptedFiles.foldl (uploadStep allowed slotName)
    ⟨st.config, st.nextUrl, st.live, false⟩
  { st with
    config := r.config
    nextUrl := r.nextUrl
    live := r.live
    errorMessage := if r.invalid then incompatibleMsg else "" }

/-- `handleRemoveFile(fileName, trackName)`.  The filter callback calls
`URL.revokeObjectURL(track.url)` on every track it visits — every track
of the slot, kept or not — and then keeps the tracks whose name differs
from `trackName`. -/
def handleRemoveFile (fileName : String) (trackName : String)
    (st : AppState) : AppState :=
  let tracks := (objGet st.config fileName).getD []
  { st with
    config := objSet st.config fileName (tracks.filter (fun t => t.name != trackName))
    live := st.live.filter (fun u => !(tracks.any (fun t => t.url == u))) }

/-- `handleRemoveAllFiles(trackName)`: sets the slot's array to `[]`.
No `revokeObjectURL` call appears in this handler. -/
def handleRemoveAllFiles (trackName : String) (st : AppState) : AppState :=
  { st with config := objSet st.config trackName [] }

/-- A zip entry: the parsed manifest (a `pack.json` holding well-formed
manifest JSON) or opaque file bytes. -/
inductive ZipContent where
  | manifestJson (m : PackInfo)
  | fileBytes (b : Bytes)
  deriving DecidableEq

/-- The zip, as JSZip's name-to-entry dictionary. -/
abbrev Archive := List (String × ZipContent)

/-- The JSON text of a manifest, as bytes, for the blob view of a
manifest entry.  No theorem relies on the exact rendering. -/
def packInfoText (m : PackInfo) : String :=
  String.intercalate ","
    ([m.name, m.description, m.author, m.version,
      toString m.manifest_version, toString m.music]
      ++ m.ignore
      ++ m.mappings.map (fun p => String.intercalate "," (p.1 :: p.2)))

/-- What `entry.async("blob")` yields for a zip entry. -/
def contentBytes : ZipContent → Bytes
  | ZipContent.manifestJson m => (packInfoText m).data.map Char.toNat
  | ZipContent.fileBytes b => b

/-- The inner export loop: `for (const \x7bname, file\x7d of config[fileName])
zip.file(name, file)` over one slot. -/
def addSlotFiles (z : Archive) (ts : List Track) : Archive :=
  ts.foldl (fun z t => objSet z t.name (ZipContent.fileBytes t.file)) z

/-- The outer export loop over all slots of `config`. -/
def addAllFiles (z : Archive) (config : Config) : Archive :=
  config.foldl (fun z p => addSlotFiles z p.2) z

/-- `handleExport`: write `pack.json` (the metadata with `mappings`
replaced by the current name lists), then add every track's bytes under
its own name in the zip's flat namespace. -/
def handleExport (config : Config) (packInfo : PackInfo) : Archive :=
  addAllFiles
    (objSet [] "pack.json"
      (ZipContent.manifestJson { packInfo with mappings := exportMappings config }))
    config

/-- The two failure alerts of `handleZipUpload`: `pack.json` absent, or
present but not parseable as JSON. -/
inductive ImportError where
  | missingManifest
  | malformedManifest
  deriving DecidableEq

/-- The inner import loop over one slot's listed track names: a name with
no zip entry is skipped (`continue`); otherwise a fresh object URL is
allocated and a track is built from the entry's blob.  Returns the
slot's tracks, the next free handle, and the handles allocated. -/
def importSlot (z : Archive) (nextUrl : Nat) :
    List String → List Track × Nat × List Nat
  | [] => ([], nextUrl, [])
  | n :: rest =>
    match objGet z n with
    | none => importSlot z nextUrl rest
    | some c =>
      let b := contentBytes c
      let r := importSlot z (nextUrl + 1) rest
      (⟨n, b, nextUrl, b.length⟩ :: r.1, r.2.1, nextUrl :: r.2.2)

/-- The outer import loop: `for (const fileName in parsedPack.mappings)`,
building `newConfig` slot by slot in manifest order. -/
def buildConfig (z : Archive) (nextUrl : Nat) :
    List (String × List String) → Config × Nat × List Nat
  | [] => ([], nextUrl, [])
  | (s, names) :: rest =>
    let r1 := importSlot z nextUrl names
    let r2 := buildConfig z r1.2.1 rest
    ((s, r1.1) :: r2.1, r2.2.1, r1.2.2 ++ r2.2.2)

/-- `Object.values(config).flat()`. -/
def allTracks (c : Config) : List Track := (c.map Prod.snd).flatten

/-- `handleZipUpload`: look up `pack.json` (alert and return with the
state untouched when absent, or when its text is not manifest JSON);
otherwise build the new config from the manifest's mappings, allocating
fresh handles, then revoke every object URL of the previous config, and
install the new config and the parsed manifest as the new state. -/
def handleZipUpload (z : Archive) (st : AppState) : AppState × Option ImportError :=
  match objGet z "pack.json" with
  | none => (st, some ImportError.missingManifest)
  | some (ZipContent.fileBytes _) => (st, some ImportError.malformedManifest)
  | some (ZipContent.manifestJson parsedPack) =>
    let r := buildConfig z st.nextUrl parsedPack.mappings
    let oldUrls := (allTracks st.config).map Track.url
    ({ st with
        config := r.1
        packInfo := parsedPack
        nextUrl := r.2.1
        live := (st.live ++ r.2.2).filter (fun u => !(oldUrls.any (fun v => v == u))) },
      none)

/-- Derived description of the names a batch accepts, used to state the
`addFiles` properties: a candidate is taken when its name passes the
extension filter and is not yet among the (growing) slot names. -/
def acceptedNames (allowed : String → Bool) (existing : List String) :
    List CandidateFile → List String
  | [] => []
  | f :: fs =>
    if allowed f.name && !(existing.any (fun nm => nm == f.name)) then
      f.name :: acceptedNames allowed (existing ++ [f.name]) fs
    else
      acceptedNames allowed existing fs

/-- The observable round-trip content of a config: slots in order, and per
slot the entry names with their bytes, in order. -/
def namesBytes (c : Config) : List (String × List (String × Bytes)) :=
  c.map (fun p => (p.1, p.2.map (fun t => (t.name, t.file))))

/-- The descriptive metadata fields (the spec's PackMetadata: everything
but the derived `mappings`). -/
def metaFields (m : PackInfo) :
    String × String × String × String × Nat × Bool × List String :=
  (m.name, m.description, m.author, m.version, m.manifest_version, m.music, m.ignore)

/-- The spec's PackMapping invariant: every catalog slot has an entry
(possibly an empty sequence) in the mapping. -/
def slotsCovered (itemsData : List CatalogItem) (c : Config) : Prop :=
  ∀ item ∈ itemsData, (objGet c item.fileName).isSome

/-! ## Concrete sample data for witnesses and counterexamples -/

/-- A one-slot catalog. -/
def itemA : CatalogItem := ⟨"a.wav", "Track A", "slot A"⟩

/-- A sample uploaded track (name, bytes, url handle, size). -/
def trackX : Track := ⟨"x.wav", [1], 0, 1⟩

/-- A second track in the same slot, with the live handle 1. -/
def trackY : Track := ⟨"y.wav", [2], 1, 1⟩

/-- A track in another slot sharing the name of trackX with different
bytes. -/
def trackX2 : Track := ⟨"x.wav", [2], 1, 1⟩

/-- A state whose slot a.wav holds two tracks with live handles 0, 1. -/
def stTwoTracks : AppState :=
  { config := [("a.wav", [trackX, trackY])]
    packInfo := defaultPackInfo [("a.wav", [trackX, trackY])]
    errorMessage := ""
    nextUrl := 2
    live := [0, 1] }

/-- A state whose slot a.wav holds one track with the live handle 0. -/
def stOneTrack : AppState :=
  { config := [("a.wav", [trackX])]
    packInfo := defaultPackInfo [("a.wav", [trackX])]
    errorMessage := ""
    nextUrl := 1
    live := [0] }

/-- Two slots holding files with the same name but different bytes. -/
def dupNameConfig : Config := [("slotA", [trackX]), ("slotB", [trackX2])]

/-- A one-slot config with an unambiguous file name. -/
def okConfig : Config := [("slotA", [⟨"kick.wav", [3, 4], 0, 2⟩])]

/-- A manifest listing one resolvable and one missing file. -/
def partialManifest : PackInfo :=
  { defaultPackInfo [] with mappings := [("slot1", ["a.wav", "missing.wav"])] }

/-- An archive with that manifest and the one resolvable file. -/
def partialArchive : Archive :=
  [("pack.json", ZipContent.manifestJson partialManifest),
   ("a.wav", ZipContent.fileBytes [7])]

/-- A manifest whose mappings list no slot at all. -/
def emptyManifest : PackInfo := { defaultPackInfo [] with mappings := [] }

/-- An archive holding only the empty manifest. -/
def zEmptyMappings : Archive := [("pack.json", ZipContent.manifestJson emptyManifest)]

/-! ## Association-list (JS object / zip dictionary) lemmas -/

theorem objGet_objSet_self {α : Type} (c : List (String × α)) (k : String) (v : α) :
    objGet (objSet c k v) k = some v := by
  induction c with
  | nil => simp [objGet, objSet]
  | cons p rest ih =>
    by_cases hp : p.1 = k
    · simp [objGet, objSet, hp]
    · simp [objGet, objSet, hp, ih]

theorem objGet_objSet_ne {α : Type} (c : List (String × α)) (k k' : String) (v : α)
    (h : k' ≠ k) : objGet (objSet c k v) k' = objGet c k' := by
  induction c with
  | nil => simp [objGet, objSet, Ne.symm h]
  | cons p rest ih =>
    by_cases hp : p.1 = k
    · have hp' : ¬(p.1 = k') := by rw [hp]; exact fun e => h e.symm
      simp [objGet, objSet, hp, hp', Ne.symm h]
    · by_cases hp' : p.1 = k'
      · simp [objGet, objSet, hp, hp', h]
      · simp [objGet, objSet, hp, hp', ih]

theorem objSet_objSet {α : Type} (c : List (String × α)) (k : String) (v w : α) :
    objSet (objSet c k v) k w = objSet c k w := by
  induction c with
  | nil => simp [objSet]
  | cons p rest ih =>
    by_cases hp : p.1 = k
    · simp [objSet, hp]
    · simp [objSet, hp, ih]

theorem objSet_get_self {α : Type} (c : List (String × α)) (k : String) (v : α)
    (h : objGet c k = some v) : objSet c k v = c := by
  induction c with
  | nil => simp [objGet] at h
  | cons p rest ih =>
    obtain ⟨p1, p2⟩ := p
    by_cases hp : p1 = k
    · simp [objGet, hp] at h
      simp [objSet, hp, h]
    · simp [objGet, hp] at h
      simp [objSet, hp, ih h]

theorem isSome_objGet_objSet {α : Type} (c : List (String × α)) (k k' : String) (v : α)
    (h : (objGet c k).isSome) : (objGet (objSet c k' v) k).isSome := by
  by_cases hk : k = k'
  · subst hk; rw [objGet_objSet_self]; rfl
  · rw [objGet_objSet_ne c k' k v hk]; exact h

theorem isSome_objGet_iff {α : Type} (c : List (String × α)) (k : String) :
    (objGet c k).isSome ↔ k ∈ c.map Prod.fst := by
  induction c with
  | nil => simp [objGet]
  | cons p rest ih =>
    by_cases hp : p.1 = k
    · simp [objGet, hp]
    · simp [objGet, hp, ih, Ne.symm hp]

/-! ## Upload (addFiles) lemmas -/

theorem uploadFold_invalid (allowed : String → Bool) (slot : String)
    (files : List CandidateFile) (acc : UploadAcc) :
    (files.foldl (uploadStep allowed slot) acc).invalid
      = (acc.invalid || files.any (fun f => !(allowed f.name))) := by
  induction files generalizing acc with
  | nil => simp
  | cons f fs ih =>
    rw [List.foldl_cons, ih]
    by_cases h1 : allowed f.name
    · by_cases h2 : ((objGet acc.config slot).getD []).any (fun t => t.name == f.name)
      · simp [uploadStep, h1, h2]
      · simp [uploadStep, h1, h2]
    · simp [uploadStep, h1]

theorem mem_acceptedNames (allowed : String → Bool) (files : List CandidateFile)
    (existing : List String) (nm : String) :
    nm ∈ acceptedNames allowed existing files
      ↔ (nm ∉ existing ∧ ∃ f ∈ files, f.name = nm ∧ allowed nm = true) := by
  induction files generalizing existing with
  | nil => simp [acceptedNames]
  | cons f fs ih =>
    by_cases h1 : allowed f.name
    · by_cases h2 : existing.any (fun x => x == f.name)
      · have hmem : f.name ∈ existing := by
          rcases List.any_eq_true.mp h2 with ⟨x, hx, he⟩
          exact (beq_iff_eq.mp he) ▸ hx
        simp only [acceptedNames, h1, h2, Bool.not_true, Bool.and_false]
        rw [if_neg (by simp [h2])]
        rw [ih]
        constructor
        · rintro ⟨hne, g, hg, hgnm, hal⟩
          exact ⟨hne, g, List.mem_cons_of_mem _ hg, hgnm, hal⟩
        · rintro ⟨hne, g, hg, hgnm, hal⟩
          rcases List.mem_cons.mp hg with hg | hg
          · exact absurd (hgnm ▸ hg ▸ hmem) hne
          · exact ⟨hne, g, hg, hgnm, hal⟩
      · have hnotmem : f.name ∉ existing := by
          intro hmem
          exact h2 (List.any_eq_true.mpr ⟨f.name, hmem, by simp⟩)
        simp only [acceptedNames]
        rw [if_pos (by simp [h1, h2])]
        simp only [List.mem_cons]
        rw [ih]
        constructor
        · rintro (heq | ⟨hne, g, hg, hgnm, hal⟩)
          · exact ⟨heq ▸ hnotmem, f, Or.inl rfl, heq.symm, heq ▸ h1⟩
          · refine ⟨fun hx => hne (List.mem_append_left _ hx), g, Or.inr hg, hgnm, hal⟩
        · rintro ⟨hne, g, hg, hgnm, hal⟩
          by_cases hfn : nm = f.name
          · exact Or.inl hfn
          · rcases hg with hg | hg
            · exact absurd (hg ▸ hgnm).symm hfn
            · refine Or.inr ⟨?_, g, hg, hgnm, hal⟩
              intro hx
              rcases List.mem_append.mp hx with hx | hx
              · exact hne hx
              · exact hfn (List.mem_singleton.mp hx)
    · simp only [acceptedNames]
      rw [if_neg (by simp [h1])]
      rw [ih]
      constructor
      · rintro ⟨hne, g, hg, hgnm, hal⟩
        exact ⟨hne, g, List.mem_cons_of_mem _ hg, hgnm, hal⟩
      · rintro ⟨hne, g, hg, hgnm, hal⟩
        rcases List.mem_cons.mp hg with hg | hg
        · rw [← hgnm, hg] at hal
          exact absurd hal (by simpa using h1)
        · exact ⟨hne, g, hg, hgnm, hal⟩

theorem acceptedNames_nodup (allowed : String → Bool) (files : List CandidateFile) :
    ∀ existing, (acceptedNames allowed existing files).Nodup := by
  induction files with
  | nil => intro ex; simp [acceptedNames]
  | cons f fs ih =>
    intro ex
    by_cases h1 : allowed f.name
    · by_cases h2 : ex.any (fun x => x == f.name)
      · simp only [acceptedNames]
        rw [if_neg (by simp [h2])]
        exact ih ex
      · simp only [acceptedNames]
        rw [if_pos (by simp [h1, h2])]
        refine List.nodup_cons.mpr ⟨?_, ih (ex ++ [f.name])⟩
        intro hmem
        have h := (mem_acceptedNames allowed fs (ex ++ [f.name]) f.name).mp hmem
        exact h.1 (List.mem_append_right _ (List.mem_singleton.mpr rfl))
    · simp only [acceptedNames]
      rw [if_neg (by simp [h1])]
      exact ih ex

theorem any_map_name (ts : List Track) (p : String → Bool) :
    (ts.map Track.name).any p = ts.any (fun t => p t.name) := by
  induction ts with
  | nil => rfl
  | cons t ts ih => simp [ih]

theorem uploadFold_slot (allowed : String → Bool) (slot : String)
    (files : List CandidateFile) (acc : UploadAcc) :
    ∃ taken : List Track,
      (objGet (files.foldl (uploadStep allowed slot) acc).config slot).getD []
        = (objGet acc.config slot).getD [] ++ taken ∧
      taken.map Track.name
        = acceptedNames allowed (((objGet acc.config slot).getD []).map Track.name)
            files := by
  induction files generalizing acc with
  | nil => exact ⟨[], by simp, by simp [acceptedNames]⟩
  | cons f fs ih =>
    rw [List.foldl_cons]
    by_cases h1 : allowed f.name
    · by_cases h2 : ((objGet acc.config slot).getD []).any (fun t => t.name == f.name)
      · have hstep : uploadStep allowed slot acc f = acc := by
          simp [uploadStep, h1, h2]
        rw [hstep]
        obtain ⟨nw, ha, hb⟩ := ih acc
        refine ⟨nw, ha, ?_⟩
        rw [hb]
        have h2' : (((objGet acc.config slot).getD []).map Track.name).any
            (fun nm => nm == f.name) = true := by
          rw [any_map_name]
          exact h2
        simp only [acceptedNames]
        rw [if_neg (by simp [h2'])]
      · have hstep : uploadStep allowed slot acc f
            = { config := objSet acc.config slot ((objGet acc.config slot).getD []
                  ++ [⟨f.name, f.content, acc.nextUrl, f.content.length⟩])
                nextUrl := acc.nextUrl + 1
                live := acc.live ++ [acc.nextUrl]
                invalid := acc.invalid } := by
          simp [uploadStep, h1, h2]
        rw [hstep]
        obtain ⟨nw, ha, hb⟩ := ih ⟨objSet acc.config slot ((objGet acc.config slot).getD []
          ++ [⟨f.name, f.content, acc.nextUrl, f.content.length⟩]),
          acc.nextUrl + 1, acc.live ++ [acc.nextUrl], acc.invalid⟩
        have hg : (objGet (objSet acc.config slot ((objGet acc.config slot).getD []
            ++ [⟨f.name, f.content, acc.nextUrl, f.content.length⟩])) slot).getD []
            = (objGet acc.config slot).getD []
              ++ [⟨f.name, f.content, acc.nextUrl, f.content.length⟩] := by
          rw [objGet_objSet_self]
          rfl
        simp only [hg] at ha hb
        refine ⟨⟨f.name, f.content, acc.nextUrl, f.content.length⟩ :: nw, ?_, ?_⟩
        · rw [ha, List.append_assoc]
          rfl
        · have h2' : (((objGet acc.config slot).getD []).map Track.name).any
              (fun nm => nm == f.name) = false := by
            rw [any_map_name]
            simpa using h2
          simp only [acceptedNames]
          rw [if_pos (by simp [h1, h2'])]
          simp only [List.map_cons]
          rw [hb]
          simp
    · have hstep : uploadStep allowed slot acc f = { acc with invalid := true } := by
        simp [uploadStep, h1]
      rw [hstep]
      obtain ⟨nw, ha, hb⟩ := ih { acc with invalid := true }
      refine ⟨nw, ha, ?_⟩
      rw [hb]
      simp only [acceptedNames]
      rw [if_neg (by simp [h1])]

/-- C2: a candidate file is accepted iff its name passes the extension
filter and is not already among the slot's (growing) entry names; the
accepted entries are appended to the slot's sequence in arrival order —
their name sequence equals `acceptedNames`, which walks the batch in
order, keeping each accepted name at its first arrival — their names
are pairwise distinct, and each passes the filter. -/
theorem addFiles_spec (allowed : String → Bool) (slot : String)
    (files : List CandidateFile) (st : AppState) :
    ∃ accepted : List Track,
      (objGet (handleFileUpload allowed slot files st).config slot).getD []
        = (objGet st.config slot).getD [] ++ accepted ∧
      accepted.map Track.name
        = acceptedNames allowed (((objGet st.config slot).getD []).map Track.name)
            files ∧
      (accepted.map Track.name).Nodup ∧
      (∀ t ∈ accepted, allowed t.name = true) ∧
      (∀ nm : String,
        nm ∈ accepted.map Track.name
          ↔ (nm ∉ ((objGet st.config slot).getD []).map Track.name ∧
             ∃ f ∈ files, f.name = nm ∧ allowed nm = true)) := by
  obtain ⟨taken, ha, hb⟩ := uploadFold_slot allowed slot files
    ⟨st.config, st.nextUrl, st.live, false⟩
  refine ⟨taken, ?_, hb, ?_, ?_, ?_⟩
  · simpa [handleFileUpload] using ha
  · rw [hb]
    exact acceptedNames_nodup allowed files _
  · intro t ht
    have hmem : t.name ∈ taken.map Track.name := List.mem_map_of_mem Track.name ht
    rw [hb] at hmem
    obtain ⟨-, g, -, -, hal⟩ := (mem_acceptedNames allowed files _ t.name).mp hmem
    exact hal
  · intro nm
    rw [hb, mem_acceptedNames]

/-- C10: the incompatible-files advisory appears after a batch iff some
candidate in that batch failed the extension filter; a batch of entirely
allowed candidates (even all duplicates) resets the message to empty,
clearing any earlier advisory. -/
theorem addFiles_advisory (allowed : String → Bool) (slot : String)
    (files : List CandidateFile) (st : AppState) :
    ((handleFileUpload allowed slot files st).errorMessage = incompatibleMsg
        ↔ ∃ f ∈ files, allowed f.name = false) ∧
    ((handleFileUpload allowed slot files st).errorMessage = ""
        ↔ ∀ f ∈ files, allowed f.name = true) := by
  have hne : incompatibleMsg ≠ "" := by decide
  have hmsg : (handleFileUpload allowed slot files st).errorMessage
      = if files.any (fun f => !(allowed f.name)) then incompatibleMsg else "" := by
    show (if (files.foldl (uploadStep allowed slot)
        ⟨st.config, st.nextUrl, st.live, false⟩).invalid then incompatibleMsg else "") = _
    rw [uploadFold_invalid]
    simp
  rw [hmsg]
  by_cases hA : files.any (fun f => !(allowed f.name))
  · rw [if_pos hA]
    obtain ⟨f, hf, hbf⟩ := List.any_eq_true.mp hA
    constructor
    · exact ⟨fun _ => ⟨f, hf, by simpa using hbf⟩, fun _ => rfl⟩
    · constructor
      · intro h
        exact absurd h hne
      · intro hall
        have := hall f hf
        simp [this] at hbf
  · rw [if_neg hA]
    have hall : ∀ f ∈ files, allowed f.name = true := by
      intro f hf
      by_contra hc
      exact hA (List.any_eq_true.mpr ⟨f, hf, by simpa using hc⟩)
    constructor
    · constructor
      · intro h
        exact absurd h.symm hne
      · rintro ⟨f, hf, hbf⟩
        rw [hall f hf] at hbf
        cases hbf
    · exact ⟨fun _ => hall, fun _ => rfl⟩

/-- C9: removing a name twice is idempotent on the whole state (the
second call repeats only revocations that already happened and removes
nothing), and when the name is not present in the (existing) slot the
call leaves the mapping unchanged; the handler is total, so no error is
raised. -/
theorem removeFile_idempotent (s n : String) (st : AppState) :
    handleRemoveFile s n (handleRemoveFile s n st) = handleRemoveFile s n st ∧
    ((objGet st.config s).isSome →
      (∀ t ∈ (objGet st.config s).getD [], t.name ≠ n) →
      (handleRemoveFile s n st).config = st.config) := by
  constructor
  · unfold handleRemoveFile
    simp only [objGet_objSet_self, Option.getD_some]
    congr 1
    · rw [objSet_objSet]
      congr 1
      rw [List.filter_filter]
      apply List.filter_congr
      intro t _
      rw [Bool.and_self]
    · apply List.filter_eq_self.mpr
      intro u hu
      have h2 := (List.mem_filter.mp hu).2
      simp only [Bool.not_eq_true', List.any_eq_false] at h2 ⊢
      intro t ht
      exact h2 t (List.mem_of_mem_filter ht)
  · intro hkey habsent
    obtain ⟨tracks, htr⟩ := Option.isSome_iff_exists.mp hkey
    rw [htr] at habsent
    simp only [Option.getD_some] at habsent
    show objSet st.config s
      (((objGet st.config s).getD []).filter (fun t => t.name != n)) = st.config
    rw [htr]
    simp only [Option.getD_some]
    have hfilter : tracks.filter (fun t => t.name != n) = tracks := by
      apply List.filter_eq_self.mpr
      intro t ht
      simpa using habsent t ht
    rw [hfilter]
    exact objSet_get_self st.config s tracks htr

/-- C5 evaluated at the failing input: removing x.wav from a slot that
also holds y.wav leaves the sequence [y.wav] in order, but the filter
callback has revoked the surviving entry's handle too — the live set is
emptied even though handle 1 belongs to the kept track. -/
theorem removeFile_revokes_kept_handle :
    ((objGet (handleRemoveFile "a.wav" "x.wav" stTwoTracks).config "a.wav").getD [])
        = [trackY] ∧
    trackY.url ∈ stTwoTracks.live ∧
    (handleRemoveFile "a.wav" "x.wav" stTwoTracks).live = [] := by
  refine ⟨by decide, by decide, by decide⟩

/-- C6 evaluated at the failing input: remove-all empties the slot's
sequence but revokes nothing — the removed entry's handle 0 stays in the
live set (a leak), contradicting the release-before-clear requirement. -/
theorem removeAll_releases_nothing :
    (objGet (handleRemoveAllFiles "a.wav" stOneTrack).config "a.wav").getD [] = [] ∧
    trackX.url ∈ (handleRemoveAllFiles "a.wav" stOneTrack).live := by
  refine ⟨by decide, by decide⟩

/-! ## Import lemmas -/

theorem importSlot_names (z : Archive) (names : List String) :
    ∀ u : Nat, (importSlot z u names).1.map Track.name
      = names.filter (fun nm => (objGet z nm).isSome) := by
  induction names with
  | nil => intro u; rfl
  | cons n rest ih =>
    intro u
    cases hz : objGet z n with
    | none => simp [importSlot, hz, ih]
    | some c => simp [importSlot, hz, ih]

theorem buildConfig_names (z : Archive) (ms : List (String × List String)) :
    ∀ u : Nat, (buildConfig z u ms).1.map (fun p => (p.1, p.2.map Track.name))
      = ms.map (fun p => (p.1, p.2.filter (fun nm => (objGet z nm).isSome))) := by
  induction ms with
  | nil => intro u; rfl
  | cons p rest ih =>
    intro u
    obtain ⟨s, names⟩ := p
    simp [buildConfig, importSlot_names, ih]

theorem buildConfig_keys (z : Archive) (ms : List (String × List String)) :
    ∀ u : Nat, (buildConfig z u ms).1.map Prod.fst = ms.map Prod.fst := by
  induction ms with
  | nil => intro u; rfl
  | cons p rest ih =>
    intro u
    obtain ⟨s, names⟩ := p
    simp [buildConfig, ih]

/-- C3: importing an archive without a root pack.json reports the
missing-manifest failure and returns the state untouched — no slot
added, removed or replaced, no metadata change, no handle revoked. -/
theorem import_missing_manifest (z : Archive) (st : AppState)
    (h : objGet z "pack.json" = none) :
    handleZipUpload z st = (st, some ImportError.missingManifest) := by
  unfold handleZipUpload
  rw [h]

theorem import_missing_manifest_witness :
    handleZipUpload [("a.wav", ZipContent.fileBytes [1])] (initialState [itemA])
      = (initialState [itemA], some ImportError.missingManifest) :=
  import_missing_manifest [("a.wav", ZipContent.fileBytes [1])]
    (initialState [itemA]) (by decide)

/-- C4: with a well-formed manifest present, import succeeds and each
manifest slot's sequence consists exactly of the listed names that have
a zip entry, in manifest order — names without an entry are silently
omitted. -/
theorem import_skips_missing_entries (z : Archive) (m : PackInfo) (st : AppState)
    (hman : objGet z "pack.json" = some (ZipContent.manifestJson m)) :
    (handleZipUpload z st).2 = none ∧
    (handleZipUpload z st).1.config.map (fun p => (p.1, p.2.map Track.name))
      = m.mappings.map (fun p => (p.1, p.2.filter (fun nm => (objGet z nm).isSome))) := by
  unfold handleZipUpload
  rw [hman]
  exact ⟨rfl, buildConfig_names z m.mappings st.nextUrl⟩

theorem import_skips_missing_entries_witness :
    (handleZipUpload partialArchive (initialState [])).2 = none ∧
    (handleZipUpload partialArchive (initialState [])).1.config.map
        (fun p => (p.1, p.2.map Track.name))
      = partialManifest.mappings.map
          (fun p => (p.1, p.2.filter (fun nm => (objGet partialArchive nm).isSome))) :=
  import_skips_missing_entries partialArchive partialManifest (initialState [])
    (by decide)

/-- C8: a failing import (missing or malformed manifest) returns the
previous state exactly — mapping, metadata and live handles intact — and
only a successful import, after the new mapping is fully built, revokes
the previous configuration's handles. -/
theorem import_failure_atomic (z : Archive) (st : AppState) :
    (∀ e : ImportError, (handleZipUpload z st).2 = some e
      → (handleZipUpload z st).1 = st) ∧
    ((handleZipUpload z st).2 = none →
      ∀ u ∈ (allTracks st.config).map Track.url, u ∉ (handleZipUpload z st).1.live) := by
  cases hz : objGet z "pack.json" with
  | none =>
    unfold handleZipUpload
    rw [hz]
    exact ⟨fun e _ => rfl, fun hn => by simp at hn⟩
  | some c =>
    cases c with
    | fileBytes b =>
      unfold handleZipUpload
      rw [hz]
      exact ⟨fun e _ => rfl, fun hn => by simp at hn⟩
    | manifestJson m =>
      unfold handleZipUpload
      rw [hz]
      refine ⟨fun e he => by simp at he, ?_⟩
      intro _ u hu hmem
      have hpred := (List.mem_filter.mp hmem).2
      have hany : ((allTracks st.config).map Track.url).any (fun v => v == u) = true :=
        List.any_eq_true.mpr ⟨u, hu, by simp⟩
      rw [hany] at hpred
      cases hpred

/-! ## Catalog-coverage (PackMapping invariant) lemmas -/

theorem initialConfig_covered (itemsData : List CatalogItem) :
    slotsCovered itemsData (initialConfig itemsData) := by
  have main : ∀ (l : List CatalogItem) (acc : Config) (item : CatalogItem),
      item ∈ l ∨ (objGet acc item.fileName).isSome →
      (objGet (l.foldl (fun acc i => objSet acc i.fileName []) acc)
        item.fileName).isSome := by
    intro l
    induction l with
    | nil =>
      rintro acc item (h | h)
      · cases h
      · exact h
    | cons i is ih =>
      rintro acc item (h | h)
      · rcases List.mem_cons.mp h with h | h
        · apply ih _ _ (Or.inr _)
          rw [h, objGet_objSet_self]
          rfl
        · exact ih _ _ (Or.inl h)
      · exact ih _ _ (Or.inr (isSome_objGet_objSet _ _ _ _ h))
  intro item hitem
  exact main itemsData [] item (Or.inl hitem)

theorem uploadFold_isSome (allowed : String → Bool) (slot k : String)
    (files : List CandidateFile) :
    ∀ acc : UploadAcc, (objGet acc.config k).isSome →
      (objGet (files.foldl (uploadStep allowed slot) acc).config k).isSome := by
  induction files with
  | nil => exact fun acc h => h
  | cons f fs ih =>
    intro acc h
    rw [List.foldl_cons]
    by_cases h1 : allowed f.name
    · by_cases h2 : ((objGet acc.config slot).getD []).any (fun t => t.name == f.name)
      · have hstep : uploadStep allowed slot acc f = acc := by
          simp [uploadStep, h1, h2]
        rw [hstep]
        exact ih acc h
      · have hstep : uploadStep allowed slot acc f
            = { config := objSet acc.config slot ((objGet acc.config slot).getD []
                  ++ [⟨f.name, f.content, acc.nextUrl, f.content.length⟩])
                nextUrl := acc.nextUrl + 1
                live := acc.live ++ [acc.nextUrl]
                invalid := acc.invalid } := by
          simp [uploadStep, h1, h2]
        rw [hstep]
        exact ih _ (isSome_objGet_objSet _ _ _ _ h)
    · have hstep : uploadStep allowed slot acc f = { acc with invalid := true } := by
        simp [uploadStep, h1]
      rw [hstep]
      exact ih _ h

/-- C7 fails as stated: importing an archive whose (well-formed) manifest
maps no slot succeeds and installs a mapping with no entry for the
catalog slot a.wav, so wholesale replacement on import does not preserve
the invariant. -/
theorem import_drops_catalog_slot :
    (handleZipUpload zEmptyMappings (initialState [itemA])).2 = none ∧
    objGet (handleZipUpload zEmptyMappings (initialState [itemA])).1.config "a.wav"
      = none := by
  refine ⟨by decide, by decide⟩

/-- C7 amended: every catalog slot has an entry in the mapping at
initialisation, and this is preserved by upload, remove and remove-all;
a successful import installs exactly the manifest's slots, so it
preserves the invariant precisely when the imported manifest lists every
catalog slot (as any archive exported from a covered mapping does). -/
theorem mapping_covers_catalog (itemsData : List CatalogItem) :
    slotsCovered itemsData (initialState itemsData).config ∧
    (∀ (allowed : String → Bool) (s : String) (files : List CandidateFile)
        (st : AppState), slotsCovered itemsData st.config →
      slotsCovered itemsData (handleFileUpload allowed s files st).config) ∧
    (∀ (s n : String) (st : AppState), slotsCovered itemsData st.config →
      slotsCovered itemsData (handleRemoveFile s n st).config) ∧
    (∀ (s : String) (st : AppState), slotsCovered itemsData st.config →
      slotsCovered itemsData (handleRemoveAllFiles s st).config) ∧
    (∀ (z : Archive) (m : PackInfo) (st : AppState),
      objGet z "pack.json" = some (ZipContent.manifestJson m) →
      (∀ item ∈ itemsData, ∃ p ∈ m.mappings, p.1 = item.fileName) →
      slotsCovered itemsData (handleZipUpload z st).1.config) := by
  refine ⟨initialConfig_covered itemsData, ?_, ?_, ?_, ?_⟩
  · intro allowed s files st hcov item hitem
    exact uploadFold_isSome allowed s item.fileName files
      ⟨st.config, st.nextUrl, st.live, false⟩ (hcov item hitem)
  · intro s n st hcov item hitem
    exact isSome_objGet_objSet _ _ _ _ (hcov item hitem)
  · intro s st hcov item hitem
    exact isSome_objGet_objSet _ _ _ _ (hcov item hitem)
  · intro z m st hman hcov item hitem
    unfold handleZipUpload
    rw [hman]
    show (objGet (buildConfig z st.nextUrl m.mappings).1 item.fileName).isSome
    rw [isSome_objGet_iff, buildConfig_keys]
    obtain ⟨p, hp, hpf⟩ := hcov item hitem
    exact hpf ▸ List.mem_map_of_mem Prod.fst hp

/-! ## Export and round-trip lemmas -/

theorem allTracks_cons (p : String × List Track) (c : Config) :
    allTracks (p :: c) = p.2 ++ allTracks c := by
  simp [allTracks]

theorem objGet_addSlotFiles_ne (ts : List Track) (k : String)
    (h : ∀ t ∈ ts, t.name ≠ k) :
    ∀ z : Archive, objGet (addSlotFiles z ts) k = objGet z k := by
  induction ts with
  | nil => intro z; rfl
  | cons t ts ih =>
    intro z
    have he : addSlotFiles z (t :: ts)
        = addSlotFiles (objSet z t.name (ZipContent.fileBytes t.file)) ts := rfl
    rw [he, ih (fun t' ht' => h t' (List.mem_cons_of_mem _ ht'))]
    exact objGet_objSet_ne z t.name k _ (Ne.symm (h t (List.mem_cons_self t ts)))

theorem objGet_addAllFiles_ne (config : Config) (k : String)
    (h : ∀ t ∈ allTracks config, t.name ≠ k) :
    ∀ z : Archive, objGet (addAllFiles z config) k = objGet z k := by
  induction config with
  | nil => intro z; rfl
  | cons p rest ih =>
    intro z
    have he : addAllFiles z (p :: rest) = addAllFiles (addSlotFiles z p.2) rest := rfl
    rw [he]
    have hsplit : ∀ t ∈ allTracks rest, t.name ≠ k := by
      intro t ht
      exact h t (by rw [allTracks_cons]; exact List.mem_append_right _ ht)
    rw [ih hsplit]
    apply objGet_addSlotFiles_ne
    intro t ht
    exact h t (by rw [allTracks_cons]; exact List.mem_append_left _ ht)

theorem objGet_addSlotFiles_mem (ts : List Track) (k : String) (b : Bytes)
    (hsame : ∀ t ∈ ts, t.name = k → t.file = b) :
    ∀ z : Archive,
      (objGet z k = some (ZipContent.fileBytes b) ∨ ∃ t ∈ ts, t.name = k) →
      objGet (addSlotFiles z ts) k = some (ZipContent.fileBytes b) := by
  induction ts with
  | nil =>
    rintro z (h | ⟨t, ht, -⟩)
    · exact h
    · cases ht
  | cons t ts ih =>
    rintro z hstart
    have he : addSlotFiles z (t :: ts)
        = addSlotFiles (objSet z t.name (ZipContent.fileBytes t.file)) ts := rfl
    rw [he]
    have hsame' : ∀ t' ∈ ts, t'.name = k → t'.file = b :=
      fun t' ht' => hsame t' (List.mem_cons_of_mem _ ht')
    by_cases hk : t.name = k
    · apply ih hsame' _ (Or.inl _)
      have hfb : t.file = b := hsame t (List.mem_cons_self t ts) hk
      rw [← hk, objGet_objSet_self, hfb]
    · apply ih hsame'
      rcases hstart with h | ⟨t', ht', hk'⟩
      · left
        rw [objGet_objSet_ne z t.name k _ (Ne.symm hk)]
        exact h
      · rcases List.mem_cons.mp ht' with h' | h'
        · exact absurd (h' ▸ hk') hk
        · exact Or.inr ⟨t', h', hk'⟩

theorem objGet_addAllFiles_mem (config : Config) (k : String) (b : Bytes)
    (hsame : ∀ t ∈ allTracks config, t.name = k → t.file = b) :
    ∀ z : Archive,
      (objGet z k = some (ZipContent.fileBytes b)
        ∨ ∃ t ∈ allTracks config, t.name = k) →
      objGet (addAllFiles z config) k = some (ZipContent.fileBytes b) := by
  induction config with
  | nil =>
    rintro z (h | ⟨t, ht, -⟩)
    · exact h
    · simp [allTracks] at ht
  | cons p rest ih =>
    rintro z hstart
    have he : addAllFiles z (p :: rest) = addAllFiles (addSlotFiles z p.2) rest := rfl
    rw [he]
    have hsameSlot : ∀ t ∈ p.2, t.name = k → t.file = b := by
      intro t ht
      exact hsame t (by rw [allTracks_cons]; exact List.mem_append_left _ ht)
    have hsameRest : ∀ t ∈ allTracks rest, t.name = k → t.file = b := by
      intro t ht
      exact hsame t (by rw [allTracks_cons]; exact List.mem_append_right _ ht)
    apply ih hsameRest
    rcases hstart with h | ⟨t, ht, hk⟩
    · exact Or.inl (objGet_addSlotFiles_mem p.2 k b hsameSlot z (Or.inl h))
    · rw [allTracks_cons] at ht
      rcases List.mem_append.mp ht with h' | h'
      · exact Or.inl (objGet_addSlotFiles_mem p.2 k b hsameSlot z (Or.inr ⟨t, h', hk⟩))
      · exact Or.inr ⟨t, h', hk⟩

theorem handleExport_manifest (config : Config) (packInfo : PackInfo)
    (hp : ∀ t ∈ allTracks config, t.name ≠ "pack.json") :
    objGet (handleExport config packInfo) "pack.json"
      = some (ZipContent.manifestJson
          { packInfo with mappings := exportMappings config }) := by
  unfold handleExport
  rw [objGet_addAllFiles_ne config _ hp, objGet_objSet_self]

theorem handleExport_file (config : Config) (packInfo : PackInfo) (t : Track)
    (ht : t ∈ allTracks config)
    (hb : ∀ t1 ∈ allTracks config, ∀ t2 ∈ allTracks config,
      t1.name = t2.name → t1.file = t2.file) :
    objGet (handleExport config packInfo) t.name
      = some (ZipContent.fileBytes t.file) := by
  unfold handleExport
  apply objGet_addAllFiles_mem
  · intro t' ht' hn
    exact hb t' ht' t ht hn
  · exact Or.inr ⟨t, ht, rfl⟩

theorem importSlot_resolved (z : Archive) (ts : List Track)
    (h : ∀ t ∈ ts, objGet z t.name = some (ZipContent.fileBytes t.file)) :
    ∀ u : Nat, (importSlot z u (ts.map Track.name)).1.map (fun tr => (tr.name, tr.file))
      = ts.map (fun t => (t.name, t.file)) := by
  induction ts with
  | nil => intro u; rfl
  | cons t ts ih =>
    intro u
    have hz := h t (List.mem_cons_self t ts)
    have ih' := ih (fun t' ht' => h t' (List.mem_cons_of_mem _ ht'))
    simp [importSlot, hz, contentBytes, ih']

theorem buildConfig_roundtrip (z : Archive) (config : Config)
    (h : ∀ t ∈ allTracks config, objGet z t.name = some (ZipContent.fileBytes t.file)) :
    ∀ u : Nat,
      namesBytes (buildConfig z u (exportMappings config)).1 = namesBytes config := by
  induction config with
  | nil => intro u; rfl
  | cons p rest ih =>
    intro u
    have hslot : ∀ t ∈ p.2, objGet z t.name = some (ZipContent.fileBytes t.file) := by
      intro t ht
      exact h t (by rw [allTracks_cons]; exact List.mem_append_left _ ht)
    have hrest : ∀ t ∈ allTracks rest,
        objGet z t.name = some (ZipContent.fileBytes t.file) := by
      intro t ht
      exact h t (by rw [allTracks_cons]; exact List.mem_append_right _ ht)
    have ih' := ih hrest
    simp [exportMappings, buildConfig, namesBytes, importSlot_resolved z p.2 hslot]
    have := ih' (importSlot z u (List.map Track.name p.2)).2.1
    simpa [exportMappings, namesBytes] using this

/-- C1 fails as stated: two slots each holding a file named x.wav with
different bytes collide in the zip's flat namespace; the later write
wins, so the re-imported mapping gives both slots the later bytes and
the first slot's content is not preserved. -/
theorem roundTrip_fails_on_shared_names :
    (handleZipUpload (handleExport dupNameConfig (defaultPackInfo dupNameConfig))
        (initialState [])).2 = none ∧
    namesBytes (handleZipUpload
        (handleExport dupNameConfig (defaultPackInfo dupNameConfig))
        (initialState [])).1.config
      ≠ namesBytes dupNameConfig := by
  refine ⟨by decide, by decide⟩

/-- C1 amended: provided no entry is named pack.json and any two entries
sharing a name (across any slots) carry the same bytes — the conditions
the flat archive namespace forces — importing the exported archive
succeeds and reproduces the same slots in order, the same entry names
and bytes in order per slot, and the same descriptive metadata fields. -/
theorem export_import_roundTrip (config : Config) (packInfo : PackInfo)
    (st : AppState)
    (hp : ∀ t ∈ allTracks config, t.name ≠ "pack.json")
    (hb : ∀ t1 ∈ allTracks config, ∀ t2 ∈ allTracks config,
      t1.name = t2.name → t1.file = t2.file) :
    (handleZipUpload (handleExport config packInfo) st).2 = none ∧
    namesBytes (handleZipUpload (handleExport config packInfo) st).1.config
      = namesBytes config ∧
    metaFields (handleZipUpload (handleExport config packInfo) st).1.packInfo
      = metaFields packInfo := by
  have hman := handleExport_manifest config packInfo hp
  have hres : ∀ t ∈ allTracks config,
      objGet (handleExport config packInfo) t.name
        = some (ZipContent.fileBytes t.file) :=
    fun t ht => handleExport_file config packInfo t ht hb
  unfold handleZipUpload
  rw [hman]
  refine ⟨rfl, ?_, rfl⟩
  show namesBytes (buildConfig (handleExport config packInfo) st.nextUrl
    (exportMappings config)).1 = namesBytes config
  exact buildConfig_roundtrip (handleExport config packInfo) config hres st.nextUrl

theorem export_import_roundTrip_witness :
    (handleZipUpload (handleExport okConfig (defaultPackInfo okConfig))
        (initialState [])).2 = none ∧
    namesBytes (handleZipUpload (handleExport okConfig (defaultPackInfo okConfig))
        (initialState [])).1.config = namesBytes okConfig ∧
    metaFields (handleZipUpload (handleExport okConfig (defaultPackInfo okConfig))
        (initialState [])).1.packInfo = metaFields (defaultPackInfo okConfig) :=
  export_import_roundTrip okConfig (defaultPackInfo okConfig) (initialState [])
    (by decide) (by decide)
